import Mathlib

/-!
# HydraScraper worker pool — formal model

Shallow embedding of the `WorkerPool` class from the backend entry point
(`src/unnamed/part_001`, lines 60–173) and of the stats endpoint
(lines 213–221).

Modelling decisions, each tied to a line of the source:

* A worker (`WorkerSt`) carries its `taskId` marker (`worker.taskId`,
  set at line 147, initialised to `null` at line 109) and a `terminated`
  flag recording that `worker.terminate()` was called on it (line 171).
  Worker identity is positional: the index in `workers` (line 110).
* Task ids are `Nat` (the JS code uses fresh random strings, line 123);
  payloads are irrelevant to the scheduler and are dropped.
* `activeWorkers` is a JS `Map` from task id to the task object, whose
  only scheduler-relevant field is `task.worker` (set at line 148); we
  model it as an association list `List (Nat × Nat)` from task id to
  worker index, with `Map.set` / `Map.get` / `Map.delete` semantics
  (`mapSet` updates in place or appends; `mapDelete` removes the entry).
* Events delivered to the pool: `execute` (a call of
  `WorkerPool.execute`, line 121), `message` / `error` / `exited`
  (the per-worker handlers registered at lines 79, 90, 103), and
  `terminate` (a call of `WorkerPool.terminate`, line 170).
* Promise settlement is recorded in an explicit log: `task.resolve`
  (line 84) logs `Settlement.resolved`, `task.reject` (line 97) logs
  `Settlement.rejected`.  The exit handler (lines 103–107) only calls
  `console.error`, so it logs nothing and leaves the state unchanged.
-/

/-- One worker thread of the pool: its `taskId` marker (JS `worker.taskId`,
`null` ↦ `none`) and whether `worker.terminate()` has been called on it. -/
structure WorkerSt where
  taskId : Option Nat
  terminated : Bool
deriving DecidableEq, Repr

/-- The mutable state of a `WorkerPool`: the `workers` array in fixed pool
order, the FIFO `taskQueue` of task ids, and the `activeWorkers` map from
task id to the index of the worker the task was assigned to. -/
structure PoolState where
  workers : List WorkerSt
  taskQueue : List Nat
  activeWorkers : List (Nat × Nat)
deriving DecidableEq, Repr

/-- A settlement of a task's promise: `resolved` for `task.resolve(result)`
(message handler, line 84), `rejected` for `task.reject(error)` (error
handler, line 97). -/
inductive Settlement where
  | resolved (tid : Nat)
  | rejected (tid : Nat)
deriving DecidableEq, Repr

/-- The task id a settlement settles. -/
def Settlement.tid : Settlement → Nat
  | .resolved t => t
  | .rejected t => t

/-- An event delivered to the pool: an `execute(data)` call producing a task
with id `tid`; a `message` event from worker `wi` whose payload carries
`result.taskId = tid`; an `error` event from worker `wi`; an `exit` event
from worker `wi` with exit code `code`; a `terminate()` call. -/
inductive Ev where
  | execute (tid : Nat)
  | message (wi tid : Nat)
  | error (wi : Nat)
  | exited (wi code : Nat)
  | terminate
deriving DecidableEq, Repr

/-- `Map.get` on the association list: first entry with the given key. -/
def mapGet : List (Nat × Nat) → Nat → Option Nat
  | [], _ => none
  | (k, v) :: rest, key => if k = key then some v else mapGet rest key

/-- `Map.set` on the association list: update the existing entry in place,
or append a new one (JS `Map` keeps insertion order). -/
def mapSet : List (Nat × Nat) → Nat → Nat → List (Nat × Nat)
  | [], key, v => [(key, v)]
  | (k, w) :: rest, key, v =>
      if k = key then (key, v) :: rest else (k, w) :: mapSet rest key v

/-- `Map.delete` on the association list: remove the entry with the given
key (a JS `Map` holds at most one). -/
def mapDelete : List (Nat × Nat) → Nat → List (Nat × Nat)
  | [], _ => []
  | (k, v) :: rest, key => if k = key then rest else (k, v) :: mapDelete rest key

/-- The error handler's reverse lookup (lines 92–93):
`Array.from(this.activeWorkers.entries()).find(([_, task]) => task.worker === worker)?.[0]`
— the first active entry whose assigned worker is `wi`. -/
def findByWorker : List (Nat × Nat) → Nat → Option Nat
  | [], _ => none
  | (t, w) :: rest, wi => if w = wi then some t else findByWorker rest wi

/-- `this.workers.find(w => !w.taskId)` (lines 133 and 159): the index of
the first worker, in fixed pool order, whose `taskId` is unset. -/
def firstIdle : List WorkerSt → Option Nat
  | [] => none
  | w :: ws =>
      if w.taskId = none then some 0 else (firstIdle ws).map (· + 1)

/-- Set worker `i`'s `taskId` marker (the mutation `worker.taskId = task.taskId`
at line 147). -/
def setTaskId : List WorkerSt → Nat → Nat → List WorkerSt
  | [], _, _ => []
  | w :: ws, 0, t => { w with taskId := some t } :: ws
  | w :: ws, i + 1, t => w :: setTaskId ws i t

/-- `WorkerPool.assignTask(worker, task)` (lines 146–151): set the worker's
`taskId`, record `task.worker`, insert the task into `activeWorkers`, and
post the payload (no scheduler-state effect). -/
def assignTask (i : Nat) (s : PoolState) (tid : Nat) : PoolState :=
  { s with
    workers := setTaskId s.workers i tid
    activeWorkers := mapSet s.activeWorkers tid i }

/-- `WorkerPool.execute(data)` (lines 121–141), scheduler-state part: find
the first available worker; if one exists assign immediately, otherwise push
the task onto the queue tail. -/
def execute (tid : Nat) (s : PoolState) : PoolState :=
  match firstIdle s.workers with
  | some i => assignTask i s tid
  | none => { s with taskQueue := s.taskQueue ++ [tid] }

/-- The loop body of `WorkerPool.processQueue()` (lines 156–165), with an
explicit fuel for structural recursion: if the queue is empty return; else
find an available worker; if one exists, shift the queue head, assign it and
recurse.  Each pass shifts exactly one queued task, so fuel equal to the
queue length is enough for the recursion never to be cut short. -/
def processQueueAux : Nat → PoolState → PoolState
  | 0, s => s
  | fuel + 1, s =>
    match s.taskQueue with
    | [] => s
    | t :: rest =>
      match firstIdle s.workers with
      | some i => processQueueAux fuel (assignTask i { s with taskQueue := rest } t)
      | none => s

/-- `WorkerPool.processQueue()` (lines 156–165). -/
def processQueue (s : PoolState) : PoolState :=
  processQueueAux s.taskQueue.length s

/-- The `message` handler (lines 79–88): look up `result.taskId` in
`activeWorkers`; if present, resolve the task, delete the entry and process
the queue; otherwise do nothing.  (The handler never consults which worker
delivered the message, and never clears any worker's `taskId`.) -/
def onMessage (s : PoolState) (tid : Nat) : PoolState × List Settlement :=
  match mapGet s.activeWorkers tid with
  | some _ =>
      (processQueue { s with activeWorkers := mapDelete s.activeWorkers tid },
       [.resolved tid])
  | none => (s, [])

/-- The `error` handler (lines 90–101): find the active task assigned to the
erroring worker; if found, reject it, delete the entry and process the queue.
(It, too, never clears any worker's `taskId`.) -/
def onError (s : PoolState) (wi : Nat) : PoolState × List Settlement :=
  match findByWorker s.activeWorkers wi with
  | some tid =>
      (processQueue { s with activeWorkers := mapDelete s.activeWorkers tid },
       [.rejected tid])
  | none => (s, [])

/-- `WorkerPool.terminate()` (lines 170–172): call `worker.terminate()` on
every worker.  It touches neither the queue nor `activeWorkers`, settles
nothing, and takes no timeout. -/
def terminatePool (s : PoolState) : PoolState :=
  { s with workers := s.workers.map (fun w => { w with terminated := true }) }

/-- One pool event: the next state and the settlements it emits.  The exit
handler (lines 103–107) only logs, so `exited` changes nothing. -/
def step (s : PoolState) : Ev → PoolState × List Settlement
  | .execute tid => (execute tid s, [])
  | .message _ tid => onMessage s tid
  | .error wi => onError s wi
  | .exited _ _ => (s, [])
  | .terminate => (terminatePool s, [])

/-- Run a sequence of events, accumulating the settlement log. -/
def run (s : PoolState) : List Ev → PoolState × List Settlement
  | [] => (s, [])
  | e :: evs =>
      ((run (step s e).1 evs).1, (step s e).2 ++ (run (step s e).1 evs).2)

/-- The freshly constructed pool (constructor, lines 61–69, plus
`initializeWorkers`, lines 74–116): `poolSize` workers, all with
`taskId = null`, empty queue, empty active map. -/
def initPool (p : Nat) : PoolState :=
  { workers := List.replicate p { taskId := none, terminated := false }
    taskQueue := []
    activeWorkers := [] }

/-- `workerPool.activeWorkers.size` as reported by `GET /api/workers/stats`
(line 216). -/
def activeLen (s : PoolState) : Nat := s.activeWorkers.length

/-- Number of workers whose `taskId` marker is unset — the pool's idle
workers in the sense of the availability test `!w.taskId`. -/
def idleCount (s : PoolState) : Nat :=
  (s.workers.filter (fun w => w.taskId.isNone)).length

/-- Number of workers whose `taskId` marker is set (busy workers). -/
def busyCount (s : PoolState) : Nat :=
  (s.workers.filter (fun w => w.taskId.isSome)).length

/-- The observable snapshot (active task count, queue depth, idle worker
count); the first two are the `activeWorkers` / `queuedTasks` fields of the
stats endpoint (lines 213–221). -/
def statsOf (s : PoolState) : Nat × Nat × Nat :=
  (activeLen s, s.taskQueue.length, idleCount s)

/-- Keys of the active map. -/
def keysOf (s : PoolState) : List Nat := s.activeWorkers.map Prod.fst

/-- How many times the trace executes a task with id `t`. -/
def execCount : List Ev → Nat → Nat
  | [], _ => 0
  | Ev.execute t2 :: evs, t => (if t2 = t then 1 else 0) + execCount evs t
  | _ :: evs, t => execCount evs t

/-- How many settlements of task `t` the log holds. -/
def settCount : List Settlement → Nat → Nat
  | [], _ => 0
  | sv :: log, t => (if sv.tid = t then 1 else 0) + settCount log t

/-- Occurrence count in a list of task ids. -/
def countNat : List Nat → Nat → Nat
  | [], _ => 0
  | x :: xs, t => (if x = t then 1 else 0) + countNat xs t

/-- How often task id `t` occurs in the pool bookkeeping: queue occurrences
plus active-map occurrences. -/
def occT (s : PoolState) (t : Nat) : Nat :=
  countNat s.taskQueue t + countNat (keysOf s) t

/-- All workers have their `taskId` marker set, so the availability test
`!w.taskId` fails for every worker. -/
def allBusy (s : PoolState) : Prop := ∀ w ∈ s.workers, w.taskId ≠ none

instance (s : PoolState) : Decidable (allBusy s) := by
  unfold allBusy; infer_instance

/-- The inductive invariant behind bounded concurrency: active entries plus
idle workers never exceed the number of workers. -/
def invC2 (s : PoolState) : Prop :=
  activeLen s + idleCount s ≤ s.workers.length

/-- A pool of one idle worker with two queued tasks, used to exercise the
queue-draining order. -/
def queuedState : PoolState :=
  { workers := [{ taskId := none, terminated := false }]
    taskQueue := [7, 8]
    activeWorkers := [] }

/-- A saturated pool of one busy worker with one queued task. -/
def saturatedState : PoolState :=
  { workers := [{ taskId := some 0, terminated := false }]
    taskQueue := [1]
    activeWorkers := [(0, 0)] }

/-! ### Worker-array helper lemmas -/

theorem setTaskId_length (ws : List WorkerSt) (i t : Nat) :
    (setTaskId ws i t).length = ws.length := by
  induction ws generalizing i with
  | nil => rfl
  | cons w ws ih =>
    cases i with
    | zero => rfl
    | succ j => simpa [setTaskId] using ih j

theorem setTaskId_get_ne (ws : List WorkerSt) (i j t : Nat) (h : i ≠ j) :
    (setTaskId ws i t)[j]? = ws[j]? := by
  induction ws generalizing i j with
  | nil => rfl
  | cons w ws ih =>
    cases i with
    | zero =>
      cases j with
      | zero => exact absurd rfl h
      | succ j2 => simp [setTaskId]
    | succ i2 =>
      cases j with
      | zero => simp [setTaskId]
      | succ j2 => simpa [setTaskId] using ih i2 j2 (by omega)

theorem firstIdle_idle (ws : List WorkerSt) (i : Nat) (h : firstIdle ws = some i) :
    ∃ w, ws[i]? = some w ∧ w.taskId = none := by
  induction ws generalizing i with
  | nil => simp [firstIdle] at h
  | cons w ws ih =>
    by_cases hw : w.taskId = none
    · simp [firstIdle, hw] at h
      exact h ▸ ⟨w, by simp, hw⟩
    · simp [firstIdle, hw] at h
      obtain ⟨j, hj, rfl⟩ := h
      obtain ⟨w2, hw2, hid⟩ := ih j hj
      exact ⟨w2, by simpa using hw2, hid⟩

theorem firstIdle_lt (ws : List WorkerSt) (i : Nat) (h : firstIdle ws = some i) :
    ∀ j w, j < i → ws[j]? = some w → w.taskId ≠ none := by
  induction ws generalizing i with
  | nil => intro j w hj hw; simp at hw
  | cons w0 ws ih =>
    by_cases hw0 : w0.taskId = none
    · simp [firstIdle, hw0] at h
      intro j w hj hw
      omega
    · simp [firstIdle, hw0] at h
      obtain ⟨i2, hi2, rfl⟩ := h
      intro j w hj hw
      cases j with
      | zero => simp at hw; exact hw ▸ hw0
      | succ j2 => exact ih i2 hi2 j2 w (by omega) (by simpa using hw)

theorem firstIdle_eq_none (ws : List WorkerSt) (h : ∀ w ∈ ws, w.taskId ≠ none) :
    firstIdle ws = none := by
  induction ws with
  | nil => rfl
  | cons w ws ih =>
    have hw : w.taskId ≠ none := h w (by simp)
    simp [firstIdle, hw]
    exact ih (fun w2 hw2 => h w2 (by simp [hw2]))

/-! ### Association-list (JS Map) helper lemmas -/

theorem mapSet_length_le (m : List (Nat × Nat)) (k v : Nat) :
    (mapSet m k v).length ≤ m.length + 1 := by
  induction m with
  | nil => simp [mapSet]
  | cons p rest ih =>
    by_cases hk : p.1 = k
    · simp [mapSet, hk]
    · simpa [mapSet, hk] using ih

theorem mapDelete_length_le (m : List (Nat × Nat)) (k : Nat) :
    (mapDelete m k).length ≤ m.length := by
  induction m with
  | nil => simp [mapDelete]
  | cons p rest ih =>
    by_cases hk : p.1 = k
    · simp [mapDelete, hk]
    · simp only [mapDelete, hk]
      simpa [hk] using ih

theorem get_count_pos (m : List (Nat × Nat)) (k v : Nat) (h : mapGet m k = some v) :
    0 < countNat (m.map Prod.fst) k := by
  induction m with
  | nil => simp [mapGet] at h
  | cons p rest ih =>
    by_cases hk : p.1 = k
    · simp [countNat, hk]
    · simp [mapGet, hk] at h
      simpa [countNat, hk] using ih h

theorem findByWorker_count_pos (m : List (Nat × Nat)) (wi t : Nat)
    (h : findByWorker m wi = some t) : 0 < countNat (m.map Prod.fst) t := by
  induction m with
  | nil => simp [findByWorker] at h
  | cons p rest ih =>
    by_cases hw : p.2 = wi
    · simp [findByWorker, hw] at h
      simp [countNat, h]
    · simp [findByWorker, hw] at h
      have := ih h
      simp only [List.map_cons, countNat]
      omega

theorem keys_mapDelete_self (m : List (Nat × Nat)) (k : Nat)
    (h : 0 < countNat (m.map Prod.fst) k) :
    countNat ((mapDelete m k).map Prod.fst) k + 1 = countNat (m.map Prod.fst) k := by
  induction m with
  | nil => simp [countNat] at h
  | cons p rest ih =>
    by_cases hk : p.1 = k
    · simp [mapDelete, hk, countNat]
      omega
    · simp [countNat, hk] at h
      simpa [mapDelete, hk, countNat] using ih h

theorem keys_mapDelete_ne (m : List (Nat × Nat)) (k t : Nat) (h : ¬k = t) :
    countNat ((mapDelete m k).map Prod.fst) t = countNat (m.map Prod.fst) t := by
  induction m with
  | nil => rfl
  | cons p rest ih =>
    by_cases hk : p.1 = k
    · simp [mapDelete, hk, countNat, h]
    · simpa [mapDelete, hk, countNat] using ih

theorem keys_mapSet_le (m : List (Nat × Nat)) (k v t : Nat) :
    countNat ((mapSet m k v).map Prod.fst) t ≤
      countNat (m.map Prod.fst) t + (if k = t then 1 else 0) := by
  induction m with
  | nil => simp [mapSet, countNat]
  | cons p rest ih =>
    by_cases hk : p.1 = k
    · simp [mapSet, hk, countNat]
    · simp only [mapSet, hk, if_neg, List.map_cons, countNat]
      omega

theorem keys_mapSet_ge (m : List (Nat × Nat)) (k v t : Nat) :
    countNat (m.map Prod.fst) t ≤ countNat ((mapSet m k v).map Prod.fst) t := by
  induction m with
  | nil => simp [mapSet, countNat]
  | cons p rest ih =>
    by_cases hk : p.1 = k
    · simp [mapSet, hk, countNat]
    · simp only [mapSet, hk, if_neg, List.map_cons, countNat]
      omega

theorem keys_mapSet_pos (m : List (Nat × Nat)) (k v : Nat) :
    0 < countNat ((mapSet m k v).map Prod.fst) k := by
  induction m with
  | nil => simp [mapSet, countNat]
  | cons p rest ih =>
    by_cases hk : p.1 = k
    · simp [mapSet, hk, countNat]
    · simp only [mapSet, hk, if_neg, List.map_cons, countNat]
      omega

theorem countNat_append (xs ys : List Nat) (t : Nat) :
    countNat (xs ++ ys) t = countNat xs t + countNat ys t := by
  induction xs with
  | nil => simp [countNat]
  | cons x xs ih =>
    simp [countNat, ih]
    omega

/-! ### Lemmas about assignTask and processQueue -/

theorem assignTask_workers_length (s : PoolState) (i tid : Nat) :
    (assignTask i s tid).workers.length = s.workers.length := by
  simp [assignTask, setTaskId_length]

theorem assignTask_busy (s : PoolState) (i tid j : Nat) (w : WorkerSt)
    (hfi : firstIdle s.workers = some i) (hj : s.workers[j]? = some w)
    (ht : w.taskId ≠ none) :
    (assignTask i s tid).workers[j]? = some w := by
  obtain ⟨wi, hwi, hid⟩ := firstIdle_idle s.workers i hfi
  have hne : i ≠ j := by
    rintro rfl
    rw [hj] at hwi
    obtain rfl := Option.some.inj hwi
    exact ht hid
  show (setTaskId s.workers i tid)[j]? = some w
  rw [setTaskId_get_ne s.workers i j tid hne]
  exact hj

theorem processQueueAux_workers_length (fuel : Nat) (s : PoolState) :
    (processQueueAux fuel s).workers.length = s.workers.length := by
  induction fuel generalizing s with
  | zero => rfl
  | succ fuel ih =>
    cases hq : s.taskQueue with
    | nil => simp [processQueueAux, hq]
    | cons t rest =>
      cases hfi : firstIdle s.workers with
      | none => simp [processQueueAux, hq, hfi]
      | some i =>
        simp only [processQueueAux, hq, hfi]
        rw [ih]
        simp [assignTask, setTaskId_length]

theorem processQueueAux_busy (fuel : Nat) (s : PoolState) (j : Nat) (w : WorkerSt)
    (hj : s.workers[j]? = some w) (ht : w.taskId ≠ none) :
    (processQueueAux fuel s).workers[j]? = some w := by
  induction fuel generalizing s with
  | zero => exact hj
  | succ fuel ih =>
    cases hq : s.taskQueue with
    | nil => simpa [processQueueAux, hq] using hj
    | cons t rest =>
      cases hfi : firstIdle s.workers with
      | none => simpa [processQueueAux, hq, hfi] using hj
      | some i =>
        simp only [processQueueAux, hq, hfi]
        exact ih _ (assignTask_busy { s with taskQueue := rest } i t j w hfi hj ht)

theorem processQueueAux_stuck (fuel : Nat) (s : PoolState)
    (h : firstIdle s.workers = none) : processQueueAux fuel s = s := by
  cases fuel with
  | zero => rfl
  | succ fuel =>
    cases hq : s.taskQueue with
    | nil => simp [processQueueAux, hq]
    | cons t rest => simp [processQueueAux, hq, h]

theorem processQueueAux_occT (fuel : Nat) (s : PoolState) (t : Nat) :
    occT (processQueueAux fuel s) t ≤ occT s t := by
  induction fuel generalizing s with
  | zero => exact le_refl _
  | succ fuel ih =>
    cases hq : s.taskQueue with
    | nil => simp [processQueueAux, hq]
    | cons q rest =>
      cases hfi : firstIdle s.workers with
      | none => simp [processQueueAux, hq, hfi]
      | some i =>
        simp only [processQueueAux, hq, hfi]
        refine le_trans (ih _) ?_
        have h1 := keys_mapSet_le s.activeWorkers q i t
        simp only [occT, keysOf, assignTask, hq, countNat]
        omega

theorem processQueue_occT (s : PoolState) (t : Nat) :
    occT (processQueue s) t ≤ occT s t :=
  processQueueAux_occT s.taskQueue.length s t

theorem processQueueAux_keys_mono (fuel : Nat) (s : PoolState) (t : Nat) :
    countNat (keysOf s) t ≤ countNat (keysOf (processQueueAux fuel s)) t := by
  induction fuel generalizing s with
  | zero => exact le_refl _
  | succ fuel ih =>
    cases hq : s.taskQueue with
    | nil => simp [processQueueAux, hq]
    | cons q rest =>
      cases hfi : firstIdle s.workers with
      | none => simp [processQueueAux, hq, hfi]
      | some i =>
        simp only [processQueueAux, hq, hfi]
        refine le_trans ?_ (ih _)
        simpa [keysOf, assignTask] using keys_mapSet_ge s.activeWorkers q i t

theorem processQueueAux_fifo (fuel : Nat) (s : PoolState) :
    ∃ k, k ≤ s.taskQueue.length ∧
      (processQueueAux fuel s).taskQueue = s.taskQueue.drop k ∧
      ∀ t2 ∈ s.taskQueue.take k, 0 < countNat (keysOf (processQueueAux fuel s)) t2 := by
  induction fuel generalizing s with
  | zero => exact ⟨0, by simp, by simp [processQueueAux], by simp⟩
  | succ fuel ih =>
    cases hq : s.taskQueue with
    | nil => exact ⟨0, by simp, by simp [processQueueAux, hq], by simp⟩
    | cons q rest =>
      cases hfi : firstIdle s.workers with
      | none => exact ⟨0, by simp, by simp [processQueueAux, hq, hfi], by simp⟩
      | some i =>
        obtain ⟨k, hk, hqv, hcnt⟩ := ih (assignTask i { s with taskQueue := rest } q)
        refine ⟨k + 1, ?_, ?_, ?_⟩
        · simp only [hq, List.length_cons]
          have : rest.length = (assignTask i { s with taskQueue := rest } q).taskQueue.length := rfl
          omega
        · simp only [processQueueAux, hq, hfi]
          rw [hqv]
          rfl
        · intro t2 ht2
          simp only [processQueueAux, hq, hfi]
          rw [List.take_succ_cons] at ht2
          rcases List.mem_cons.mp ht2 with rfl | hmem
          · refine lt_of_lt_of_le ?_ (processQueueAux_keys_mono fuel _ t2)
            simpa [keysOf, assignTask] using keys_mapSet_pos s.activeWorkers t2 i
          · exact hcnt t2 hmem

/-! ### The bounded-concurrency invariant -/

theorem idle_filter_setTaskId (ws : List WorkerSt) (i t : Nat) (w : WorkerSt)
    (h : ws[i]? = some w) (hid : w.taskId = none) :
    ((setTaskId ws i t).filter (fun x => x.taskId.isNone)).length + 1 =
      (ws.filter (fun x => x.taskId.isNone)).length := by
  induction ws generalizing i with
  | nil => simp at h
  | cons w0 ws ih =>
    cases i with
    | zero =>
      simp at h
      subst h
      simp [setTaskId, List.filter_cons, hid]
    | succ i2 =>
      simp at h
      by_cases hw0 : w0.taskId.isNone
      · have := ih i2 h
        simp [setTaskId, List.filter_cons, hw0]
        omega
      · have := ih i2 h
        simp [setTaskId, List.filter_cons, hw0]
        omega

theorem assignTask_invC2 (s : PoolState) (i tid : Nat)
    (hfi : firstIdle s.workers = some i) (hI : invC2 s) :
    invC2 (assignTask i s tid) := by
  obtain ⟨w, hw, hid⟩ := firstIdle_idle s.workers i hfi
  have h1 := mapSet_length_le s.activeWorkers tid i
  have h2 := idle_filter_setTaskId s.workers i tid w hw hid
  unfold invC2 activeLen idleCount at hI ⊢
  simp only [assignTask] at *
  rw [setTaskId_length]
  omega

theorem processQueueAux_invC2 (fuel : Nat) (s : PoolState) (hI : invC2 s) :
    invC2 (processQueueAux fuel s) := by
  induction fuel generalizing s with
  | zero => exact hI
  | succ fuel ih =>
    cases hq : s.taskQueue with
    | nil => simpa [processQueueAux, hq] using hI
    | cons t rest =>
      cases hfi : firstIdle s.workers with
      | none => simpa [processQueueAux, hq, hfi] using hI
      | some i =>
        simp only [processQueueAux, hq, hfi]
        refine ih _ (assignTask_invC2 { s with taskQueue := rest } i t hfi ?_)
        simpa [invC2, activeLen, idleCount] using hI

theorem terminatePool_idle_filter (ws : List WorkerSt) :
    ((ws.map (fun w => { w with terminated := true })).filter
        (fun x => x.taskId.isNone)).length =
      (ws.filter (fun x => x.taskId.isNone)).length := by
  induction ws with
  | nil => rfl
  | cons w ws ih =>
    by_cases hw : w.taskId.isNone
    · simp [List.filter_cons, hw, ih]
    · simp [List.filter_cons, hw, ih]

theorem step_invC2 (s : PoolState) (e : Ev) (hI : invC2 s) : invC2 (step s e).1 := by
  cases e with
  | execute tid =>
    simp only [step, execute]
    cases hfi : firstIdle s.workers with
    | some i => exact assignTask_invC2 s i tid hfi hI
    | none => simpa [invC2, activeLen, idleCount] using hI
  | message wi tid =>
    simp only [step, onMessage]
    cases hg : mapGet s.activeWorkers tid with
    | some v =>
      refine processQueueAux_invC2 _ _ ?_
      have := mapDelete_length_le s.activeWorkers tid
      unfold invC2 activeLen idleCount at hI ⊢
      simp only at *
      omega
    | none => exact hI
  | error wi =>
    simp only [step, onError]
    cases hg : findByWorker s.activeWorkers wi with
    | some tid =>
      refine processQueueAux_invC2 _ _ ?_
      have := mapDelete_length_le s.activeWorkers tid
      unfold invC2 activeLen idleCount at hI ⊢
      simp only at *
      omega
    | none => exact hI
  | exited wi code => exact hI
  | terminate =>
    unfold invC2 activeLen idleCount at hI ⊢
    simp only [step, terminatePool] at *
    rw [terminatePool_idle_filter, List.length_map]
    exact hI

theorem step_workers_length (s : PoolState) (e : Ev) :
    (step s e).1.workers.length = s.workers.length := by
  cases e with
  | execute tid =>
    simp only [step, execute]
    cases hfi : firstIdle s.workers with
    | some i => exact assignTask_workers_length s i tid
    | none => rfl
  | message wi tid =>
    simp only [step, onMessage]
    cases hg : mapGet s.activeWorkers tid with
    | some v => exact processQueueAux_workers_length _ _
    | none => rfl
  | error wi =>
    simp only [step, onError]
    cases hg : findByWorker s.activeWorkers wi with
    | some tid => exact processQueueAux_workers_length _ _
    | none => rfl
  | exited wi code => rfl
  | terminate => simp [step, terminatePool]

theorem run_invC2 (evs : List Ev) (s : PoolState) (hI : invC2 s) :
    invC2 (run s evs).1 := by
  induction evs generalizing s with
  | nil => exact hI
  | cons e evs ih => exact ih _ (step_invC2 s e hI)

theorem run_workers_length (evs : List Ev) (s : PoolState) :
    (run s evs).1.workers.length = s.workers.length := by
  induction evs generalizing s with
  | nil => rfl
  | cons e evs ih =>
    simp only [run]
    exact (ih _).trans (step_workers_length s e)

/-! ### Settlement counting -/

theorem settCount_append (l1 l2 : List Settlement) (t : Nat) :
    settCount (l1 ++ l2) t = settCount l1 t + settCount l2 t := by
  induction l1 with
  | nil => simp [settCount]
  | cons sv l1 ih =>
    have hstep : settCount ((sv :: l1) ++ l2) t =
        (if sv.tid = t then 1 else 0) + settCount (l1 ++ l2) t := rfl
    rw [hstep, ih, settCount]
    omega

theorem execCount_cons (e : Ev) (evs : List Ev) (t : Nat) :
    execCount (e :: evs) t = execCount [e] t + execCount evs t := by
  cases e with
  | execute t2 => simp only [execCount]; omega
  | message wi tid => simp only [execCount]; omega
  | error wi => simp only [execCount]; omega
  | exited wi code => simp only [execCount]; omega
  | terminate => simp only [execCount]; omega

theorem step_occT (s : PoolState) (e : Ev) (t : Nat) :
    occT (step s e).1 t + settCount (step s e).2 t ≤ occT s t + execCount [e] t := by
  cases e with
  | execute tid =>
    cases hfi : firstIdle s.workers with
    | some i =>
      have h1 := keys_mapSet_le s.activeWorkers tid i t
      simp only [step, execute, hfi, occT, keysOf, assignTask, settCount, execCount]
      omega
    | none =>
      have h2 := countNat_append s.taskQueue [tid] t
      simp only [countNat] at h2
      simp only [step, execute, hfi, occT, keysOf, settCount, execCount]
      omega
  | message wi tid =>
    cases hg : mapGet s.activeWorkers tid with
    | some v =>
      have hpq := processQueue_occT { s with activeWorkers := mapDelete s.activeWorkers tid } t
      simp only [processQueue, occT, keysOf] at hpq
      simp only [step, onMessage, hg, processQueue, occT, keysOf, settCount,
        Settlement.tid, execCount]
      by_cases ht : tid = t
      · subst ht
        have hpos := get_count_pos s.activeWorkers tid v hg
        have hdel := keys_mapDelete_self s.activeWorkers tid hpos
        rw [if_pos rfl]
        omega
      · have hdel := keys_mapDelete_ne s.activeWorkers tid t ht
        rw [if_neg ht]
        omega
    | none =>
      simp only [step, onMessage, hg, occT, keysOf, settCount, execCount]
      omega
  | error wi =>
    cases hg : findByWorker s.activeWorkers wi with
    | some tid =>
      have hpq := processQueue_occT { s with activeWorkers := mapDelete s.activeWorkers tid } t
      simp only [processQueue, occT, keysOf] at hpq
      simp only [step, onError, hg, processQueue, occT, keysOf, settCount,
        Settlement.tid, execCount]
      by_cases ht : tid = t
      · subst ht
        have hpos := findByWorker_count_pos s.activeWorkers wi tid hg
        have hdel := keys_mapDelete_self s.activeWorkers tid hpos
        rw [if_pos rfl]
        omega
      · have hdel := keys_mapDelete_ne s.activeWorkers tid t ht
        rw [if_neg ht]
        omega
    | none =>
      simp only [step, onError, hg, occT, keysOf, settCount, execCount]
      omega
  | exited wi code =>
    simp only [step, occT, keysOf, settCount, execCount]
    omega
  | terminate =>
    simp only [step, terminatePool, occT, keysOf, settCount, execCount]
    omega

theorem run_occT (evs : List Ev) (s : PoolState) (t : Nat) :
    occT (run s evs).1 t + settCount (run s evs).2 t ≤ occT s t + execCount evs t := by
  induction evs generalizing s with
  | nil => simp [run, settCount, execCount]
  | cons e evs ih =>
    have h1 := step_occT s e t
    have h2 := ih (step s e).1
    have h3 := settCount_append (step s e).2 (run (step s e).1 evs).2 t
    have h4 := execCount_cons e evs t
    simp only [run]
    omega

/-! ### Busy workers stay busy -/

theorem terminatePool_allBusy (s : PoolState) (h : allBusy s) :
    allBusy (terminatePool s) := by
  intro w hw
  simp only [terminatePool, List.mem_map] at hw
  obtain ⟨w0, hw0, rfl⟩ := hw
  simpa using h w0 hw0

theorem step_allBusy (s : PoolState) (e : Ev) (h : allBusy s) :
    allBusy (step s e).1 ∧ ∃ extra, (step s e).1.taskQueue = s.taskQueue ++ extra := by
  have hfi : firstIdle s.workers = none := firstIdle_eq_none s.workers h
  cases e with
  | execute tid =>
    simp only [step, execute, hfi]
    exact ⟨h, [tid], rfl⟩
  | message wi tid =>
    cases hg : mapGet s.activeWorkers tid with
    | some v =>
      have hst := processQueueAux_stuck
        ({ s with activeWorkers := mapDelete s.activeWorkers tid }).taskQueue.length
        { s with activeWorkers := mapDelete s.activeWorkers tid } hfi
      simp only [step, onMessage, hg, processQueue, hst]
      exact ⟨h, [], by simp⟩
    | none =>
      simp only [step, onMessage, hg]
      exact ⟨h, [], by simp⟩
  | error wi =>
    cases hg : findByWorker s.activeWorkers wi with
    | some tid =>
      have hst := processQueueAux_stuck
        ({ s with activeWorkers := mapDelete s.activeWorkers tid }).taskQueue.length
        { s with activeWorkers := mapDelete s.activeWorkers tid } hfi
      simp only [step, onError, hg, processQueue, hst]
      exact ⟨h, [], by simp⟩
    | none =>
      simp only [step, onError, hg]
      exact ⟨h, [], by simp⟩
  | exited wi code =>
    simp only [step]
    exact ⟨h, [], by simp⟩
  | terminate =>
    simp only [step]
    exact ⟨terminatePool_allBusy s h, [], by simp [terminatePool]⟩

theorem run_allBusy (evs : List Ev) (s : PoolState) (h : allBusy s) :
    allBusy (run s evs).1 ∧ ∃ extra, (run s evs).1.taskQueue = s.taskQueue ++ extra := by
  induction evs generalizing s with
  | nil => exact ⟨h, [], by simp [run]⟩
  | cons e evs ih =>
    obtain ⟨h1, ex1, hq1⟩ := step_allBusy s e h
    obtain ⟨h2, ex2, hq2⟩ := ih _ h1
    refine ⟨h2, ex1 ++ ex2, ?_⟩
    simp only [run]
    rw [hq2, hq1, List.append_assoc]

theorem step_busy (s : PoolState) (e : Ev) (j : Nat) (w : WorkerSt) (t : Nat)
    (hj : s.workers[j]? = some w) (ht : w.taskId = some t) :
    ∃ w2, (step s e).1.workers[j]? = some w2 ∧ w2.taskId = some t := by
  have htn : w.taskId ≠ none := by simp [ht]
  cases e with
  | execute tid =>
    simp only [step, execute]
    cases hfi : firstIdle s.workers with
    | some i => exact ⟨w, assignTask_busy s i tid j w hfi hj htn, ht⟩
    | none => exact ⟨w, hj, ht⟩
  | message wi tid =>
    cases hg : mapGet s.activeWorkers tid with
    | some v =>
      simp only [step, onMessage, hg, processQueue]
      exact ⟨w, processQueueAux_busy _ _ j w hj htn, ht⟩
    | none =>
      simp only [step, onMessage, hg]
      exact ⟨w, hj, ht⟩
  | error wi =>
    cases hg : findByWorker s.activeWorkers wi with
    | some tid =>
      simp only [step, onError, hg, processQueue]
      exact ⟨w, processQueueAux_busy _ _ j w hj htn, ht⟩
    | none =>
      simp only [step, onError, hg]
      exact ⟨w, hj, ht⟩
  | exited wi code => exact ⟨w, hj, ht⟩
  | terminate =>
    refine ⟨{ w with terminated := true }, ?_, ht⟩
    simp [step, terminatePool, List.getElem?_map, hj]

/-! ### The claims -/

/-- Claim C1, failing run: in a pool of one worker with task 0 running and
task 1 queued, worker 0 delivering the completion message for task 0 does
settle the handle (the log is `[resolved 0]`) and clears the active entry,
but the worker is never marked idle (`firstIdle` still finds no worker) and
task 1 stays queued — so a completion with a non-empty queue assigns no
queued task, against the claim. -/
theorem C1_completion_no_reassign :
    (run (initPool 1) [Ev.execute 0, Ev.execute 1, Ev.message 0 0]).2 =
      [Settlement.resolved 0] ∧
    (run (initPool 1) [Ev.execute 0, Ev.execute 1, Ev.message 0 0]).1.taskQueue = [1] ∧
    firstIdle (run (initPool 1) [Ev.execute 0, Ev.execute 1, Ev.message 0 0]).1.workers =
      none ∧
    activeLen (run (initPool 1) [Ev.execute 0, Ev.execute 1, Ev.message 0 0]).1 = 0 := by
  decide

/-- Claim C2: for every pool size and every event sequence, the number of
busy workers and the number of entries in the active task map never exceed
the pool size. -/
theorem C2_bounded_concurrency (p : Nat) (evs : List Ev) :
    busyCount (run (initPool p) evs).1 ≤ p ∧
    activeLen (run (initPool p) evs).1 ≤ p := by
  have hlen : (run (initPool p) evs).1.workers.length = p := by
    rw [run_workers_length]
    simp [initPool]
  have hI : invC2 (run (initPool p) evs).1 := by
    refine run_invC2 evs (initPool p) ?_
    simp [invC2, activeLen, idleCount, initPool]
  unfold invC2 at hI
  constructor
  · calc busyCount (run (initPool p) evs).1
        ≤ (run (initPool p) evs).1.workers.length := List.length_filter_le _ _
      _ = p := hlen
  · omega

/-- Claim C3: `execute` settles nothing at submission time and decides
synchronously — when some worker is idle, the task is handed to the first
idle worker in fixed pool order (`firstIdle`), bypassing the queue, and the
chosen index really is the least idle one; when no worker is idle, the task
is appended to the queue tail. -/
theorem C3_schedule_spec (s : PoolState) (tid : Nat) :
    (∀ i, firstIdle s.workers = some i →
      execute tid s = assignTask i s tid ∧
      (execute tid s).taskQueue = s.taskQueue ∧
      (∃ w, s.workers[i]? = some w ∧ w.taskId = none) ∧
      (∀ j w, j < i → s.workers[j]? = some w → w.taskId ≠ none)) ∧
    (firstIdle s.workers = none →
      execute tid s = { s with taskQueue := s.taskQueue ++ [tid] }) := by
  constructor
  · intro i hfi
    refine ⟨by simp [execute, hfi], by simp [execute, hfi, assignTask],
      firstIdle_idle s.workers i hfi, firstIdle_lt s.workers i hfi⟩
  · intro hfi
    simp [execute, hfi]

/-- Witness for C3 at a concrete pool: one idle worker, so index 0 is
picked and all the conjuncts hold. -/
theorem C3_schedule_spec_witness :
    execute 5 (initPool 1) = assignTask 0 (initPool 1) 5 ∧
    (execute 5 (initPool 1)).taskQueue = (initPool 1).taskQueue ∧
    (∃ w, (initPool 1).workers[0]? = some w ∧ w.taskId = none) ∧
    (∀ j w, j < 0 → (initPool 1).workers[j]? = some w → w.taskId ≠ none) :=
  (C3_schedule_spec (initPool 1) 5).1 0 (by decide)

/-- Claim C4, failing run: pool of size 2, tasks 1–4 submitted at once.
The first snapshot matches the claim (`active 2, queued 2, idle 0`), but
after task 1 settles the code reports `active 1, queued 2, idle 0` and the
queue is still `[3, 4]` — task 3 is not assigned, against the claimed
`active 2, queued 1, idle 0`. -/
theorem C4_scenario_eval :
    statsOf (run (initPool 2)
      [Ev.execute 1, Ev.execute 2, Ev.execute 3, Ev.execute 4]).1 = (2, 2, 0) ∧
    statsOf (run (initPool 2)
      [Ev.execute 1, Ev.execute 2, Ev.execute 3, Ev.execute 4, Ev.message 0 1]).1 =
      (1, 2, 0) ∧
    (run (initPool 2)
      [Ev.execute 1, Ev.execute 2, Ev.execute 3, Ev.execute 4,
        Ev.message 0 1]).1.taskQueue = [3, 4] := by
  decide

/-- Counterexample to claim C5: task 0 is assigned, then its worker
terminates (exit event) and the pool is shut down — two terminal events —
yet the settlement log stays empty and the task is still recorded active:
the handle is left permanently unsettled. -/
theorem C5_unsettled_after_crash :
    mapGet (run (initPool 1)
      [Ev.execute 0, Ev.exited 0 1, Ev.terminate]).1.activeWorkers 0 = some 0 ∧
    (run (initPool 1) [Ev.execute 0, Ev.exited 0 1, Ev.terminate]).2 = [] := by
  decide

/-- Claim C5 as amended: a handle settles at most once.  If a trace
executes a task id at most once, the settlement log settles that id at most
once (worker results and reported errors are the only settling events; exit
and terminate settle nothing). -/
theorem C5_settle_at_most_once (p : Nat) (evs : List Ev) (tid : Nat)
    (h : execCount evs tid ≤ 1) :
    settCount (run (initPool p) evs).2 tid ≤ 1 := by
  have hocc := run_occT evs (initPool p) tid
  have hz : occT (initPool p) tid = 0 := by
    simp [occT, initPool, keysOf, countNat]
  omega

/-- Witness for C5: a single execute followed by its completion settles
exactly once. -/
theorem C5_settle_at_most_once_witness :
    execCount [Ev.execute 0, Ev.message 0 0] 0 ≤ 1 ∧
    settCount (run (initPool 1) [Ev.execute 0, Ev.message 0 0]).2 0 ≤ 1 :=
  ⟨by decide, C5_settle_at_most_once 1 [Ev.execute 0, Ev.message 0 0] 0 (by decide)⟩

/-- Counterexample to claim C6: task 1 is queued and unassigned when
`terminate` is called, yet after the call it is still sitting in the queue
and the settlement log is empty — no queued task is settled with any
pool-closed rejection. -/
theorem C6_queued_task_dropped :
    (run (initPool 1) [Ev.execute 0, Ev.execute 1, Ev.terminate]).1.taskQueue = [1] ∧
    (run (initPool 1) [Ev.execute 0, Ev.execute 1, Ev.terminate]).2 = [] := by
  decide

/-- Claim C6 as amended: `terminate` forcibly terminates every worker
immediately; it takes no timeout, waits for nothing, settles nothing, and
leaves the queue and the active map untouched. -/
theorem C6_terminate_no_drain (s : PoolState) :
    (step s Ev.terminate).1.taskQueue = s.taskQueue ∧
    (step s Ev.terminate).1.activeWorkers = s.activeWorkers ∧
    (step s Ev.terminate).2 = [] ∧
    ∀ w ∈ (step s Ev.terminate).1.workers, w.terminated = true := by
  refine ⟨rfl, rfl, rfl, ?_⟩
  intro w hw
  simp only [step, terminatePool, List.mem_map] at hw
  obtain ⟨w0, _, rfl⟩ := hw
  rfl

/-- Witness for C6 at a concrete pool. -/
theorem C6_terminate_no_drain_witness :
    (step (initPool 2) Ev.terminate).1.taskQueue = (initPool 2).taskQueue ∧
    (step (initPool 2) Ev.terminate).1.activeWorkers = (initPool 2).activeWorkers ∧
    (step (initPool 2) Ev.terminate).2 = [] ∧
    ∀ w ∈ (step (initPool 2) Ev.terminate).1.workers, w.terminated = true :=
  C6_terminate_no_drain (initPool 2)

/-- Counterexample to claim C7: an `execute` after `terminate` does not
fail fast — the task is assigned to (dead) worker 0 and recorded active,
and nothing is ever rejected with a pool-closed error. -/
theorem C7_accepts_after_shutdown :
    (run (initPool 1) [Ev.terminate, Ev.execute 0]).2 = [] ∧
    mapGet (run (initPool 1) [Ev.terminate, Ev.execute 0]).1.activeWorkers 0 =
      some 0 := by
  decide

/-- Claim C7 as amended: a schedule call after `terminate` is accepted like
any other — it settles nothing and the task ends up queued or active; there
is no lifecycle flag and no pool-closed failure path. -/
theorem C7_schedule_after_shutdown (s : PoolState) (tid : Nat) :
    (step (step s Ev.terminate).1 (Ev.execute tid)).2 = [] ∧
    (0 < countNat (step (step s Ev.terminate).1 (Ev.execute tid)).1.taskQueue tid ∨
     0 < countNat (keysOf (step (step s Ev.terminate).1 (Ev.execute tid)).1) tid) := by
  refine ⟨rfl, ?_⟩
  show 0 < countNat (execute tid (terminatePool s)).taskQueue tid ∨
    0 < countNat (keysOf (execute tid (terminatePool s))) tid
  cases hfi : firstIdle (terminatePool s).workers with
  | some i =>
    right
    have h1 := keys_mapSet_pos (terminatePool s).activeWorkers tid i
    simpa [execute, hfi, assignTask, keysOf] using h1
  | none =>
    left
    have h2 := countNat_append (terminatePool s).taskQueue [tid] tid
    simp only [countNat] at h2
    simp only [execute, hfi]
    simp [h2]

/-- Counterexample to claim C8: worker 0 crashes (exit event) while running
task 0.  No settlement is ever produced (no crash-kind error), and a
subsequent submission is stuck: task 1 sits in the queue with no idle
worker, so the pool is deadlocked rather than recovered. -/
theorem C8_crash_unsettled_and_stalled :
    (run (initPool 1) [Ev.execute 0, Ev.exited 0 1, Ev.execute 1]).2 = [] ∧
    (run (initPool 1) [Ev.execute 0, Ev.exited 0 1, Ev.execute 1]).1.taskQueue = [1] ∧
    firstIdle (run (initPool 1)
      [Ev.execute 0, Ev.exited 0 1, Ev.execute 1]).1.workers = none := by
  decide

/-- Claim C8 as amended: the exit handler only logs — an exit event leaves
the pool state exactly unchanged and settles nothing, so a crashed worker
keeps its `taskId` marker and its capacity is never recovered. -/
theorem C8_exit_handler_noop (s : PoolState) (wi code : Nat) :
    step s (Ev.exited wi code) = (s, []) := rfl

/-- Claim C9: queue processing is FIFO — one activation of `processQueue`
removes exactly a prefix of the queue (the first `k` tasks, in order) and
every task of that prefix ends up recorded in the active map, so a task
enqueued earlier is assigned no later than any task enqueued after it. -/
theorem C9_fifo_prefix (s : PoolState) :
    ∃ k, k ≤ s.taskQueue.length ∧
      (processQueue s).taskQueue = s.taskQueue.drop k ∧
      ∀ t2 ∈ s.taskQueue.take k, 0 < countNat (keysOf (processQueue s)) t2 := by
  unfold processQueue
  exact processQueueAux_fifo s.taskQueue.length s

/-- Witness for C9 at a concrete state: one idle worker and queue `[7, 8]`;
the head task 7 is assigned and 8 stays queued. -/
theorem C9_fifo_prefix_witness :
    ∃ k, k ≤ queuedState.taskQueue.length ∧
      (processQueue queuedState).taskQueue = queuedState.taskQueue.drop k ∧
      ∀ t2 ∈ queuedState.taskQueue.take k,
        0 < countNat (keysOf (processQueue queuedState)) t2 :=
  C9_fifo_prefix queuedState

/-- Claim C10 (implicit bug): the `taskId` marker is never cleared.  First,
no event changes the `taskId` of a busy worker, so a worker is assigned at
most one task ever; second, once every worker is busy the pool stays that
way forever and the queue only grows — every later-submitted task remains
queued for the rest of the run. -/
theorem C10_workers_never_freed :
    (∀ (s : PoolState) (e : Ev) (j : Nat) (w : WorkerSt) (t : Nat),
      s.workers[j]? = some w → w.taskId = some t →
      ∃ w2, (step s e).1.workers[j]? = some w2 ∧ w2.taskId = some t) ∧
    (∀ (s : PoolState) (evs : List Ev), allBusy s →
      allBusy (run s evs).1 ∧
      ∃ extra, (run s evs).1.taskQueue = s.taskQueue ++ extra) :=
  ⟨step_busy, fun s evs h => run_allBusy evs s h⟩

/-- Witness for C10: in the saturated one-worker pool, delivering the
completion of task 0 leaves worker 0 marked busy with task 0, and a further
submission only extends the queue. -/
theorem C10_workers_never_freed_witness :
    (∃ w2, (step saturatedState (Ev.message 0 0)).1.workers[0]? = some w2 ∧
      w2.taskId = some 0) ∧
    (allBusy (run saturatedState [Ev.execute 2]).1 ∧
      ∃ extra, (run saturatedState [Ev.execute 2]).1.taskQueue =
        saturatedState.taskQueue ++ extra) := by
  constructor
  · exact C10_workers_never_freed.1 saturatedState (Ev.message 0 0) 0
      { taskId := some 0, terminated := false } 0 (by decide) (by decide)
  · exact C10_workers_never_freed.2 saturatedState [Ev.execute 2] (by decide)
